import Mathlib

/-!
# Verification of the OTS (one-time on-chain secrets) core of dedis/filesharing

The repository's cryptographic core operates over a cyclic group of prime
order `q` (edwards25519 in the sources).  We use the standard shallow
embedding of such a group: since the group is cyclic of prime order with a
fixed generator `g`, it is isomorphic to the additive group `ZMod q`, and we
represent a point `a·g` by its exponent `a : ZMod q`.  Under this
representation:

* point addition is addition in `ZMod q`;
* the neutral element (`Point().Null()`) is `0`;
* the standard base point (`Point().Base()`, i.e. `Mul(nil, s)` with scalar
  `1`) is `1`;
* scalar multiplication `Point().Mul(P, s)` is multiplication `s * P`;
* scalars themselves are also `ZMod q` (the scalar field of a prime-order
  group).

Non-algebraic primitives (SHA-256, point marshaling, `network.Marshal`,
hash-to-scalar for Fiat–Shamir challenges, hash-to-point, the collective
`cosi` signature) are modelled as explicit function parameters, so theorems
quantify over them (adding round-trip hypotheses exactly where the Go
libraries guarantee them).

Scalar inversion in the sources goes through `big.Int.ModInverse`, which
yields no result when the argument shares a factor with the modulus; for a
prime modulus this happens exactly on `0`.  `share.RecoverCommit` passes the
(possibly nil) result straight into `big.Int.Mul`, which is a runtime panic;
we model that outcome by the distinguished error `OcsError.divZeroPanic`.
`nist.Int.Inv` instead leaves the freshly allocated zero scalar untouched,
so `Inv(0) = 0`; `scalarInvTotal` models that.

Bytes are modelled as `List ℕ` (the byte values themselves never matter,
only equality and concatenation of byte strings).
-/

namespace OTS

deriving instance DecidableEq for Except

/-- Byte strings (`[]byte` in Go). -/
abbrev Msg := List ℕ

/-- Sequencing of a fallible step over a list, mirroring the Go loops that
abort at the first failing iteration (`Option`-valued so a runtime panic can
also be threaded through). -/
def optMapM {α β : Type} (f : α → Option β) : List α → Option (List β)
  | [] => some []
  | a :: l =>
    match f a with
    | none => none
    | some b => (optMapM f l).map (fun bs => b :: bs)

/-- `share.PubShare`: an index (a Go `int`, hence `ℤ`: adversarial inputs can
be negative) together with a group point. -/
structure PubShare (q : ℕ) where
  I : ℤ
  V : ZMod q
  deriving DecidableEq, Repr, Inhabited

/-- `proof.DLEQProof`: challenge `C`, response `R` and the two commitments
`VG`, `VH`. -/
structure DLEQProof (q : ℕ) where
  C : ZMod q
  R : ZMod q
  VG : ZMod q
  VH : ZMod q
  deriving DecidableEq, Repr, Inhabited

/-- `pvss.PubVerShare`: a public share plus its DLEQ proof. -/
structure PubVerShare (q : ℕ) where
  S : PubShare q
  P : DLEQProof q
  deriving DecidableEq, Repr, Inhabited

/-- `DLEQProof.Verify (suite, G, H, xG, xH)`: accept iff
`VG == rG + c·xG` and `VH == rH + c·xH` (the source computes the right-hand
sides and compares with `Equal`). -/
def dleqVerify {q : ℕ} (p : DLEQProof q) (G H xG xH : ZMod q) : Bool :=
  decide (p.VG = p.R * G + p.C * xG ∧ p.VH = p.R * H + p.C * xH)

/-- `proof.NewDLEQProof(suite, G, H, x)` with commitment randomness `v` and
Fiat–Shamir challenge `c` (the source draws `v` from `random.Stream` and
computes `c` by hashing `(xG, xH, vG, vH)`; both are parameters here):
`r := v - c·x`, commitments `vG := v·G`, `vH := v·H`. -/
def dleqProve {q : ℕ} (G H x v c : ZMod q) : DLEQProof q :=
  ⟨c, v - c * x, v * G, v * H⟩

/-- `pvss.VerifyEncShare(suite, H, X, sH, encShare)`: a single DLEQ
verification with bases `H`, `X` and public points `sH`, `encShare.S.V`. -/
def VerifyEncShare {q : ℕ} (H X sH : ZMod q) (encShare : PubVerShare q) : Bool :=
  dleqVerify encShare.P H X sH encShare.S.V

/-- `pvss.VerifyDecShare(suite, G, X, encShare, decShare)`: a single DLEQ
verification with bases `G`, `decShare.S.V` and public points `X`,
`encShare.S.V`. -/
def VerifyDecShare {q : ℕ} (G X : ZMod q) (encShare decShare : PubVerShare q) : Bool :=
  dleqVerify decShare.P G decShare.S.V X encShare.S.V

/-- Error taxonomy of the embedded code paths.  Distinct Go error values
(and the two distinguishable runtime panics) get distinct constructors. -/
inductive OcsError where
  | differentLengths
  | tooFewShares
  | notEnoughGoodShares
  | encVerification
  | decVerification
  | divZeroPanic
  | indexPanic
  | parseError
  | schnorrSigFailed
  | emptyForwardLinkSig
  | forwardLinkHashMismatch
  | cosiSigFailed
  | invalidWriteHash
  deriving DecidableEq, Repr

/-- Modular inverse as computed by `big.Int.ModInverse`: the unique `b` with
`a * b = 1` if one exists, `none` otherwise (for prime `q`, exactly when
`a = 0`).  Implemented as an executable search so that concrete instances
evaluate inside the kernel. -/
def findInv (q : ℕ) (a : ZMod q) : Option (ZMod q) :=
  ((List.range q).map (fun (k : ℕ) => (k : ZMod q))).find? (fun b => a * b = 1)

/-- `nist.Int.Div(a, b) = a * ModInverse(b)`; a missing inverse is passed to
`big.Int.Mul` and panics, modelled by `none`. -/
def scalarDiv {q : ℕ} (a b : ZMod q) : Option (ZMod q) :=
  (findInv q b).map (fun bi => a * bi)

/-- `nist.Int.Inv(a)`: `big.Int.ModInverse` on the freshly allocated zero
scalar; when no inverse exists the receiver keeps its value `0`. -/
def scalarInvTotal {q : ℕ} (a : ZMod q) : ZMod q :=
  (findInv q a).getD 0

/-- The evaluation abscissa for index `i`: `Scalar().SetInt64(1 + i)` (used
by `PriPoly.Eval`, `PubPoly.Eval`, `xScalar` and `RecoverCommit`). -/
def xcoord (q : ℕ) (i : ℤ) : ZMod q :=
  ((1 + i : ℤ) : ZMod q)

/-- The interpolation abscissa of a share: `Scalar().SetInt64(1 + s.I)`. -/
def xval {q : ℕ} (s : PubShare q) : ZMod q :=
  ((1 + s.I : ℤ) : ZMod q)

/-- The filter at the head of `share.RecoverCommit` (and `share.xScalar`):
keep a share iff it is non-nil and `0 ≤ s.I < n`.  (A nil `s.V` inside a
non-nil share is not representable in this model; the guard `s.V == nil`
of the source is subsumed by the `none` case.) -/
def rcSelect {q : ℕ} (n : ℕ) (shares : List (Option (PubShare q))) : List (PubShare q) :=
  shares.filterMap (fun os =>
    match os with
    | none => none
    | some s => if 0 ≤ s.I ∧ s.I < (n : ℤ) then some s else none)

/-- One term of the Lagrange sum of `share.RecoverCommit`: for the entry at
position `k` of the selected list, `num = ∏_{j ≠ k} x_j`,
`den = ∏_{j ≠ k} (x_j - x_k)`, and the term is `V_k · (num / den)`.
(The Go map is keyed by position; since positions are distinct, iterating
the map and skipping `j == i` is iterating all other entries.) -/
def rcTerm {q : ℕ} (sel : List (PubShare q)) (k : ℕ) : Option (ZMod q) :=
  let s := sel.getD k default
  let others := ((List.range sel.length).filter (fun j => j ≠ k)).map
    (fun j => xval (sel.getD j default))
  (scalarDiv others.prod ((others.map (fun xj => xj - xval s)).prod)).map
    (fun w => s.V * w)

/-- `share.RecoverCommit(g, shares, t, n)`: filter the shares, require at
least `t` of them, then sum the Lagrange terms (the base `g` is unused by
the source).  A division panic surfaces as `divZeroPanic`. -/
def RecoverCommit {q : ℕ} (shares : List (Option (PubShare q))) (t n : ℕ) :
    Except OcsError (ZMod q) :=
  let sel := rcSelect n shares
  if sel.length < t then .error .notEnoughGoodShares
  else
    match optMapM (rcTerm sel) (List.range sel.length) with
    | none => .error .divZeroPanic
    | some terms => .ok terms.sum

/-- `pvss.VerifyDecShareBatch(suite, G, X, encShares, decShares)`: reject on
length mismatch, otherwise return (in order) the decrypted shares whose
decryption proof verifies. -/
def VerifyDecShareBatch {q : ℕ} (G : ZMod q) (X : List (ZMod q))
    (encShares decShares : List (PubVerShare q)) :
    Except OcsError (List (PubVerShare q)) :=
  if X.length ≠ encShares.length ∨ encShares.length ≠ decShares.length then
    .error .differentLengths
  else
    .ok (((X.zip (encShares.zip decShares)).filter
      (fun tr => VerifyDecShare G tr.1 tr.2.1 tr.2.2)).map (fun tr => tr.2.2))

/-- `pvss.RecoverSecret(suite, G, X, encShares, decShares, t, n)`: verify the
decrypted-share batch, require at least `t` valid shares, then reconstruct
via `share.RecoverCommit`. -/
def RecoverSecret {q : ℕ} (G : ZMod q) (X : List (ZMod q))
    (encShares decShares : List (PubVerShare q)) (t n : ℕ) :
    Except OcsError (ZMod q) :=
  match VerifyDecShareBatch G X encShares decShares with
  | .error e => .error e
  | .ok D =>
    if D.length < t then .error .tooFewShares
    else RecoverCommit (D.map (fun d => some d.S)) t n

/-- Horner evaluation of `share.PriPoly.Eval` (and, pointwise on
commitments, `share.PubPoly.Eval`): `v := 0`; for `j` from `t-1` down to
`0`, `v := v * xi + coeffs[j]`. -/
def evalPoly {q : ℕ} (coeffs : List (ZMod q)) (xi : ZMod q) : ZMod q :=
  coeffs.foldr (fun a acc => acc * xi + a) 0

/-! ## Generic helper lemmas -/

theorem optMapM_eq_some {α β : Type} (f : α → Option β) (g : α → β) (l : List α)
    (h : ∀ a ∈ l, f a = some (g a)) : optMapM f l = some (l.map g) := by
  induction l with
  | nil => rfl
  | cons a t ih =>
    simp only [optMapM, h a (List.mem_cons_self a t),
      ih (fun b hb => h b (List.mem_cons_of_mem a hb)), List.map_cons, Option.map_some']

theorem optMapM_eq_none {α β : Type} (f : α → Option β) (l : List α) (a : α)
    (ha : a ∈ l) (h : f a = none) : optMapM f l = none := by
  induction l with
  | nil => cases ha
  | cons b t ih =>
    rcases List.mem_cons.mp ha with rfl | hmem
    · simp [optMapM, h]
    · cases hfb : f b <;> simp [optMapM, hfb, ih hmem]

theorem sum_map_range {M : Type} [AddCommMonoid M] (n : ℕ) (f : ℕ → M) :
    ((List.range n).map f).sum = ∑ k ∈ Finset.range n, f k := by
  induction n with
  | zero => simp
  | succ m ih =>
    rw [List.range_succ, List.map_append, List.sum_append, Finset.sum_range_succ, ih]
    simp

theorem prod_map_filter_range {M : Type} [CommMonoid M] (n k : ℕ) (f : ℕ → M) :
    (((List.range n).filter (fun j => j ≠ k)).map f).prod =
      ∏ j ∈ (Finset.range n).erase k, f j := by
  rw [← List.prod_toFinset f (List.Nodup.filter _ (List.nodup_range n))]
  congr 1
  ext j
  simp [Finset.mem_erase, List.mem_filter, and_comm]

/-! ## Scalar inversion -/

theorem findInv_zero {q : ℕ} (hq : 1 < q) : findInv q (0 : ZMod q) = none := by
  haveI : Fact (1 < q) := ⟨hq⟩
  refine List.find?_eq_none.mpr (fun b _ => ?_)
  simp

theorem findInv_of_ne_zero {q : ℕ} [Fact q.Prime] {a : ZMod q} (ha : a ≠ 0) :
    findInv q a = some a⁻¹ := by
  haveI : NeZero q := ⟨(Fact.out (p := q.Prime)).ne_zero⟩
  rcases hfind : findInv q a with _ | b
  · exfalso
    have hmem : a⁻¹ ∈ (List.range q).map (fun (k : ℕ) => (k : ZMod q)) := by
      have hval : ((a⁻¹.val : ℕ) : ZMod q) = a⁻¹ := ZMod.natCast_rightInverse a⁻¹
      have hlt : a⁻¹.val ∈ List.range q := List.mem_range.mpr (ZMod.val_lt a⁻¹)
      have hmem' := @List.mem_map_of_mem ℕ (ZMod q) (List.range q) a⁻¹.val
        (fun k => (k : ZMod q)) hlt
      simp only at hmem'
      rw [hval] at hmem'
      exact hmem'
    have := List.find?_eq_none.mp hfind _ hmem
    simp only [decide_eq_true_eq] at this
    exact this (mul_inv_cancel₀ ha)
  · have hb := List.find?_some hfind
    simp only [decide_eq_true_eq] at hb
    have : b = a⁻¹ := by
      have h1 : a⁻¹ * (a * b) = a⁻¹ * 1 := by rw [hb]
      rwa [← mul_assoc, inv_mul_cancel₀ ha, one_mul, mul_one] at h1
    rw [this]

theorem scalarDiv_of_ne_zero {q : ℕ} [Fact q.Prime] (a : ZMod q) {b : ZMod q} (hb : b ≠ 0) :
    scalarDiv a b = some (a * b⁻¹) := by
  rw [scalarDiv, findInv_of_ne_zero hb, Option.map_some']

theorem scalarDiv_zero {q : ℕ} (hq : 1 < q) (a : ZMod q) :
    scalarDiv a (0 : ZMod q) = none := by
  rw [scalarDiv, findInv_zero hq, Option.map_none']

/-! ## Polynomial bridge: the Horner evaluation of the source equals the
evaluation of the corresponding `Polynomial`. -/

noncomputable def polyOf {q : ℕ} (coeffs : List (ZMod q)) : Polynomial (ZMod q) :=
  coeffs.foldr (fun a p => Polynomial.C a + Polynomial.X * p) 0

theorem evalPoly_eq_polyOf {q : ℕ} (coeffs : List (ZMod q)) (x : ZMod q) :
    evalPoly coeffs x = (polyOf coeffs).eval x := by
  induction coeffs with
  | nil => simp [evalPoly, polyOf]
  | cons a t ih =>
    simp [evalPoly, polyOf] at ih ⊢
    rw [ih]
    ring

theorem degree_polyOf_lt {q : ℕ} [Fact q.Prime] (coeffs : List (ZMod q)) :
    (polyOf coeffs).degree < (coeffs.length : WithBot ℕ) := by
  haveI : Fact (1 < q) := ⟨(Fact.out (p := q.Prime)).one_lt⟩
  induction coeffs with
  | nil => simpa [polyOf] using WithBot.bot_lt_coe 0
  | cons a t ih =>
    have h2 : (Polynomial.X * polyOf t).degree ≤ 1 + (polyOf t).degree := by
      simpa [Polynomial.degree_X] using Polynomial.degree_mul_le Polynomial.X (polyOf t)
    have hlen : (((a :: t).length : ℕ) : WithBot ℕ) = 1 + (t.length : WithBot ℕ) := by
      rw [List.length_cons]
      push_cast
      rw [add_comm]
    refine lt_of_le_of_lt (Polynomial.degree_add_le _ _) ?_
    rw [max_lt_iff, hlen]
    constructor
    · refine lt_of_le_of_lt Polynomial.degree_C_le ?_
      calc (0 : WithBot ℕ) = ((0 : ℕ) : WithBot ℕ) := by norm_cast
        _ < ((t.length + 1 : ℕ) : WithBot ℕ) := WithBot.coe_lt_coe.mpr (Nat.succ_pos _)
        _ = 1 + (t.length : WithBot ℕ) := by push_cast; rw [add_comm]
    · exact lt_of_le_of_lt h2 (WithBot.add_lt_add_left (by simp) ih)

/-- Lagrange interpolation evaluated at `0`, in the exact shape of the sum
computed by `share.RecoverCommit`:
`∑_k y_k · (∏_{j≠k} x_j) · (∏_{j≠k} (x_j − x_k))⁻¹ = f(0)`
for nodes `x_k = v k` injective on `[0, n)` and values `y_k = f(x_k)` of a
polynomial of degree `< n`. -/
theorem lagrange_core {q : ℕ} [Fact q.Prime] (n : ℕ) (v : ℕ → ZMod q)
    (hinj : Set.InjOn v (Finset.range n)) (f : Polynomial (ZMod q))
    (hdeg : f.degree < (Finset.range n).card) :
    ∑ k ∈ Finset.range n, f.eval (v k) *
      ((∏ j ∈ (Finset.range n).erase k, v j) *
        (∏ j ∈ (Finset.range n).erase k, (v j - v k))⁻¹) = f.eval 0 := by
  have hinterp := Lagrange.eq_interpolate hinj hdeg
  have hbasis : ∀ k, (Lagrange.basis (Finset.range n) v k).eval 0 =
      (∏ j ∈ (Finset.range n).erase k, v j) *
        (∏ j ∈ (Finset.range n).erase k, (v j - v k))⁻¹ := by
    intro k
    rw [Lagrange.basis, Polynomial.eval_prod]
    have hfac : ∀ j ∈ (Finset.range n).erase k,
        (Lagrange.basisDivisor (v k) (v j)).eval 0 = v j * (v j - v k)⁻¹ := by
      intro j _
      rw [Lagrange.basisDivisor]
      simp only [Polynomial.eval_mul, Polynomial.eval_C, Polynomial.eval_sub, Polynomial.eval_X]
      rw [zero_sub, ← neg_sub (v j) (v k), inv_neg]
      ring
    rw [Finset.prod_congr rfl hfac, Finset.prod_mul_distrib, ← Finset.prod_inv_distrib]
  conv_rhs => rw [hinterp]
  rw [Lagrange.interpolate_apply, Polynomial.eval_finset_sum]
  refine Finset.sum_congr rfl (fun k _ => ?_)
  rw [Polynomial.eval_mul, Polynomial.eval_C, hbasis k]

/-- Completeness of the DLEQ proof system: an honestly generated proof for
secret `x` verifies against the encrypted points `x·G` and `x·H`. -/
theorem dleqVerify_prove {q : ℕ} (G H x v c : ZMod q) :
    dleqVerify (dleqProve G H x v c) G H (x * G) (x * H) = true := by
  simp only [dleqVerify, dleqProve, decide_eq_true_eq]
  constructor <;> ring


theorem rcTerm_eq {q : ℕ} [Fact q.Prime] (sel : List (PubShare q)) (k : ℕ)
    (hne : (∏ j ∈ (Finset.range sel.length).erase k,
        (xval (sel.getD j default) - xval (sel.getD k default))) ≠ 0) :
    rcTerm sel k = some ((sel.getD k default).V *
      ((∏ j ∈ (Finset.range sel.length).erase k, xval (sel.getD j default)) *
       (∏ j ∈ (Finset.range sel.length).erase k,
          (xval (sel.getD j default) - xval (sel.getD k default)))⁻¹)) := by
  have hnum := prod_map_filter_range sel.length k (fun j => xval (sel.getD j default))
  have hden := prod_map_filter_range sel.length k
      (fun j => xval (sel.getD j default) - xval (sel.getD k default))
  simp only [rcTerm, List.map_map, Function.comp_def]
  rw [hnum, hden, scalarDiv_of_ne_zero _ hne, Option.map_some']

theorem RecoverCommit_honest {q : ℕ} [Fact q.Prime]
    (shares : List (Option (PubShare q))) (t n : ℕ)
    (coeffs : List (ZMod q)) (gpt : ZMod q)
    (ht : t ≤ (rcSelect n shares).length)
    (hlen : coeffs.length ≤ (rcSelect n shares).length)
    (hinj : ∀ i, i < (rcSelect n shares).length → ∀ j, j < (rcSelect n shares).length → i ≠ j →
      xval ((rcSelect n shares).getD i default) ≠ xval ((rcSelect n shares).getD j default))
    (hV : ∀ k, k < (rcSelect n shares).length →
      ((rcSelect n shares).getD k default).V =
        evalPoly coeffs (xval ((rcSelect n shares).getD k default)) * gpt) :
    RecoverCommit shares t n = .ok (evalPoly coeffs 0 * gpt) := by
  have hterm : ∀ k ∈ List.range (rcSelect n shares).length,
      rcTerm (rcSelect n shares) k = some (((rcSelect n shares).getD k default).V *
        ((∏ j ∈ (Finset.range (rcSelect n shares).length).erase k,
            xval ((rcSelect n shares).getD j default)) *
         (∏ j ∈ (Finset.range (rcSelect n shares).length).erase k,
            (xval ((rcSelect n shares).getD j default) -
              xval ((rcSelect n shares).getD k default)))⁻¹)) := by
    intro k hk
    have hkm : k < (rcSelect n shares).length := List.mem_range.mp hk
    refine rcTerm_eq (rcSelect n shares) k ?_
    rw [Finset.prod_ne_zero_iff]
    intro j hj
    rcases Finset.mem_erase.mp hj with ⟨hjk, hjm⟩
    exact sub_ne_zero_of_ne (hinj j (Finset.mem_range.mp hjm) k hkm hjk)
  have hmap := optMapM_eq_some (rcTerm (rcSelect n shares))
    (fun k => ((rcSelect n shares).getD k default).V *
      ((∏ j ∈ (Finset.range (rcSelect n shares).length).erase k,
          xval ((rcSelect n shares).getD j default)) *
       (∏ j ∈ (Finset.range (rcSelect n shares).length).erase k,
          (xval ((rcSelect n shares).getD j default) -
            xval ((rcSelect n shares).getD k default)))⁻¹))
    (List.range (rcSelect n shares).length) hterm
  have hInj : Set.InjOn (fun k => xval ((rcSelect n shares).getD k default))
      (Finset.range (rcSelect n shares).length) := by
    intro i hi j hj hij
    by_contra hne
    exact hinj i (Finset.mem_range.mp (by exact_mod_cast hi)) j
      (Finset.mem_range.mp (by exact_mod_cast hj)) hne hij
  have hdeg : (polyOf coeffs).degree <
      ((Finset.range (rcSelect n shares).length).card : WithBot ℕ) := by
    refine lt_of_lt_of_le (degree_polyOf_lt coeffs) ?_
    rw [Finset.card_range]
    exact_mod_cast hlen
  have hcore := lagrange_core (rcSelect n shares).length
    (fun k => xval ((rcSelect n shares).getD k default)) hInj (polyOf coeffs) hdeg
  simp only [RecoverCommit]
  rw [if_neg (not_lt.mpr ht), hmap]
  simp only []
  congr 1
  rw [sum_map_range]
  calc ∑ k ∈ Finset.range (rcSelect n shares).length,
        ((rcSelect n shares).getD k default).V *
        ((∏ j ∈ (Finset.range (rcSelect n shares).length).erase k,
            xval ((rcSelect n shares).getD j default)) *
         (∏ j ∈ (Finset.range (rcSelect n shares).length).erase k,
            (xval ((rcSelect n shares).getD j default) -
              xval ((rcSelect n shares).getD k default)))⁻¹)
      = ∑ k ∈ Finset.range (rcSelect n shares).length,
        gpt * ((polyOf coeffs).eval (xval ((rcSelect n shares).getD k default)) *
        ((∏ j ∈ (Finset.range (rcSelect n shares).length).erase k,
            xval ((rcSelect n shares).getD j default)) *
         (∏ j ∈ (Finset.range (rcSelect n shares).length).erase k,
            (xval ((rcSelect n shares).getD j default) -
              xval ((rcSelect n shares).getD k default)))⁻¹)) := by
        refine Finset.sum_congr rfl (fun k hk => ?_)
        rw [hV k (Finset.mem_range.mp hk), evalPoly_eq_polyOf]
        ring
    _ = gpt * ∑ k ∈ Finset.range (rcSelect n shares).length,
        (polyOf coeffs).eval (xval ((rcSelect n shares).getD k default)) *
        ((∏ j ∈ (Finset.range (rcSelect n shares).length).erase k,
            xval ((rcSelect n shares).getD j default)) *
         (∏ j ∈ (Finset.range (rcSelect n shares).length).erase k,
            (xval ((rcSelect n shares).getD j default) -
              xval ((rcSelect n shares).getD k default)))⁻¹) := by
        rw [Finset.mul_sum]
    _ = gpt * (polyOf coeffs).eval 0 := by rw [hcore]
    _ = evalPoly coeffs 0 * gpt := by rw [evalPoly_eq_polyOf]; ring


theorem rcSelect_map_some {q : ℕ} (n : ℕ) (L : List (PubShare q))
    (h : ∀ s ∈ L, 0 ≤ s.I ∧ s.I < (n : ℤ)) : rcSelect n (L.map some) = L := by
  induction L with
  | nil => rfl
  | cons a t ih =>
    have ha := h a (List.mem_cons_self a t)
    have ht' := ih (fun s hs => h s (List.mem_cons_of_mem a hs))
    simp only [List.map_cons, rcSelect, List.filterMap_cons] at ht' ⊢
    rw [if_pos ha, ht']

theorem getD_map_S {q : ℕ} (dec : List (PubVerShare q)) (k : ℕ) (hk : k < dec.length) :
    (dec.map (fun d => d.S)).getD k default = (dec.getD k default).S := by
  rw [List.getD_eq_getElem _ _ (by simpa using hk), List.getD_eq_getElem _ _ hk,
    List.getElem_map]

theorem zip_filter_map_all {q : ℕ} (G : ZMod q) :
    ∀ (X : List (ZMod q)) (enc dec : List (PubVerShare q)),
    X.length = enc.length → enc.length = dec.length →
    (∀ k, k < dec.length →
      VerifyDecShare G (X.getD k 0) (enc.getD k default) (dec.getD k default) = true) →
    ((X.zip (enc.zip dec)).filter
      (fun tr => VerifyDecShare G tr.1 tr.2.1 tr.2.2)).map (fun tr => tr.2.2) = dec := by
  intro X
  induction X with
  | nil =>
    intro enc dec h1 h2 _
    have hd0 : dec.length = 0 := by
      rw [← h2, ← h1]
      rfl
    rw [List.length_eq_zero.mp hd0]
    simp
  | cons x xs ih =>
    intro enc dec h1 h2 hv
    cases enc with
    | nil => simp at h1
    | cons e es =>
      cases dec with
      | nil => simp at h2
      | cons d ds =>
        have h0 : VerifyDecShare G x e d = true := by
          have := hv 0 (Nat.succ_pos _)
          simpa using this
        have hrest := ih es ds (by simpa using h1) (by simpa using h2)
          (fun k hk => by
            have := hv (k + 1) (by simpa using Nat.succ_lt_succ hk)
            simpa using this)
        simp only [List.zip_cons_cons, List.filter_cons]
        rw [if_pos (by simpa using h0)]
        rw [List.map_cons, hrest]

theorem VerifyDecShareBatch_all {q : ℕ} (G : ZMod q) (X : List (ZMod q))
    (enc dec : List (PubVerShare q))
    (hlx : X.length = enc.length) (hle : enc.length = dec.length)
    (hver : ∀ k, k < dec.length →
      VerifyDecShare G (X.getD k 0) (enc.getD k default) (dec.getD k default) = true) :
    VerifyDecShareBatch G X enc dec = .ok dec := by
  rw [VerifyDecShareBatch, if_neg (by push_neg; exact ⟨hlx, hle⟩),
    zip_filter_map_all G X enc dec hlx hle hver]

theorem RecoverSecret_honest {q : ℕ} [Fact q.Prime] (G : ZMod q) (X : List (ZMod q))
    (enc dec : List (PubVerShare q)) (t n : ℕ) (coeffs : List (ZMod q)) (gpt : ZMod q)
    (hlx : X.length = enc.length) (hle : enc.length = dec.length)
    (hver : ∀ k, k < dec.length →
      VerifyDecShare G (X.getD k 0) (enc.getD k default) (dec.getD k default) = true)
    (ht : t ≤ dec.length)
    (hlen : coeffs.length ≤ dec.length)
    (hIrange : ∀ k, k < dec.length →
      0 ≤ (dec.getD k default).S.I ∧ (dec.getD k default).S.I < (n : ℤ))
    (hinj : ∀ i, i < dec.length → ∀ j, j < dec.length → i ≠ j →
      xval (dec.getD i default).S ≠ xval (dec.getD j default).S)
    (hV : ∀ k, k < dec.length →
      (dec.getD k default).S.V = evalPoly coeffs (xval (dec.getD k default).S) * gpt) :
    RecoverSecret G X enc dec t n = .ok (evalPoly coeffs 0 * gpt) := by
  have hbatch := VerifyDecShareBatch_all G X enc dec hlx hle hver
  have hbound : ∀ s ∈ dec.map (fun d => d.S), 0 ≤ s.I ∧ s.I < (n : ℤ) := by
    intro s hs
    rcases List.mem_map.mp hs with ⟨d, hd, rfl⟩
    rcases List.mem_iff_getElem.mp hd with ⟨k, hk, rfl⟩
    have := hIrange k hk
    rwa [List.getD_eq_getElem _ _ hk] at this
  have hsel : rcSelect n ((dec.map (fun d => d.S)).map some) = dec.map (fun d => d.S) :=
    rcSelect_map_some n _ hbound
  have hmapmap : dec.map (fun d => some d.S) = (dec.map (fun d => d.S)).map some := by
    rw [List.map_map]
    rfl
  have hsel' : rcSelect n (dec.map (fun d => some d.S)) = dec.map (fun d => d.S) := by
    rw [hmapmap, hsel]
  have hlength : (rcSelect n (dec.map (fun d => some d.S))).length = dec.length := by
    rw [hsel', List.length_map]
  simp only [RecoverSecret]
  rw [hbatch]
  simp only []
  rw [if_neg (not_lt.mpr ht)]
  refine RecoverCommit_honest (dec.map (fun d => some d.S)) t n coeffs gpt ?_ ?_ ?_ ?_
  · rw [hlength]; exact ht
  · rw [hlength]; exact hlen
  · intro i hi j hj hij
    rw [hlength] at hi hj
    rw [hsel', getD_map_S dec i hi, getD_map_S dec j hj]
    exact hinj i hi j hj hij
  · intro k hk
    rw [hlength] at hk
    rw [hsel', getD_map_S dec k hk]
    exact hV k hk


/-! ## PVSS share creation and decryption -/

/-- `pvss.EncShares(suite, H, X, secret, t)`: the writer forms the secret
polynomial (its coefficient list `coeffs` has length `t`, head = secret),
evaluates it at `1..n`, and batch-proves DLEQ with bases `G_i := H`,
`H_i := X_i` and secrets `p(i)`; the encrypted share values are
`sX_i = p(i)·X_i`.  The commitment randomness `vs i` and the collective
Fiat–Shamir challenge `c` are parameters (drawn from `random.Stream` and the
hash in the source). -/
def EncShares {q : ℕ} (H : ZMod q) (X : List (ZMod q)) (coeffs : List (ZMod q))
    (vs : ℕ → ZMod q) (c : ZMod q) : List (PubVerShare q) :=
  (List.range X.length).map (fun (i : ℕ) =>
    ⟨⟨(i : ℤ), evalPoly coeffs (xcoord q (i : ℤ)) * X.getD i 0⟩,
      dleqProve H (X.getD i 0) (evalPoly coeffs (xcoord q (i : ℤ))) (vs i) c⟩)

/-- The commitment-polynomial evaluations published by the writer
(`otsclient.SetupPVSS`: `encProofs[i] = commitPoly.Eval(i).V`, where
`commitPoly = priPoly.Commit(h)` has coefficient commitments `a_j·h`). -/
def encProofsOf {q : ℕ} (h : ZMod q) (coeffs : List (ZMod q)) (n : ℕ) : List (ZMod q) :=
  (List.range n).map (fun (i : ℕ) => evalPoly (coeffs.map (fun a => a * h)) (xcoord q (i : ℤ)))

/-- `pvss.DecShare(suite, H, X, sH, x, encShare)`: verify the encryption
proof, then decrypt `V := x⁻¹ · sX` and prove DLEQ over bases `g = 1` and
`V` with secret `x` (randomness `v`, challenge `c` are parameters). -/
def DecShare {q : ℕ} (H X sH : ZMod q) (x : ZMod q) (encShare : PubVerShare q)
    (v c : ZMod q) : Except OcsError (PubVerShare q) :=
  if VerifyEncShare H X sH encShare = true then
    .ok ⟨⟨encShare.S.I, scalarInvTotal x * encShare.S.V⟩,
      dleqProve 1 (scalarInvTotal x * encShare.S.V) x v c⟩
  else .error .encVerification

/-! ## Schnorr signatures (`onet.v1/crypto`) -/

/-- A Schnorr signature `(challenge, response)`. -/
structure SchnorrSig (q : ℕ) where
  chal : ZMod q
  resp : ZMod q
  deriving DecidableEq, Repr, Inhabited

/-- The protocol environment: the non-algebraic primitives the code calls
into, modelled as opaque functions. -/
structure Env (q : ℕ) where
  /-- `hashSchnorr(suite, msg, V)` reduced to a scalar. -/
  schnorrHash : ZMod q → Msg → ZMod q
  /-- `cosi.VerifySignature(suite, publics, message, signature)`. -/
  cosiVerify : List (ZMod q) → Msg → Msg → Bool
  /-- `util.CreatePointH(suite, pubKey)` (hash-to-point of the reader key). -/
  hpoint : ZMod q → ZMod q
  /-- `network.Marshal` of a `pvss.PubVerShare`. -/
  marshalShare : PubVerShare q → Msg
  /-- `network.Unmarshal` into a `pvss.PubVerShare` (`none` = error). -/
  unmarshalShare : Msg → Option (PubVerShare q)
  /-- `Point.Data()` (`none` = error; the sources sometimes ignore it). -/
  ptData : ZMod q → Option Msg
  /-- The point `Point.Pick(data, rand)` embeds for a given byte prefix. -/
  embedPt : Msg → ZMod q
  /-- `Point.PickLen()`: how many bytes a point embeds. -/
  pickLen : ℕ

/-- `crypto.VerifySchnorr(suite, public, msg, sig)`: recompute
`V := r·g + c·public` and accept iff `hash(V, msg) == c`. -/
def schnorrVerify {q : ℕ} (env : Env q) (pub : ZMod q) (msg : Msg) (sig : SchnorrSig q) :
    Bool :=
  decide (env.schnorrHash (sig.resp * 1 + sig.chal * pub) msg = sig.chal)

/-- `crypto.SignSchnorr(suite, private, msg)` with commitment randomness `k`:
`V := k·g`, `c := hash(V, msg)`, `r := k − c·x`. -/
def schnorrSign {q : ℕ} (env : Env q) (x k : ZMod q) (msg : Msg) : SchnorrSig q :=
  ⟨env.schnorrHash (k * 1) msg, k - env.schnorrHash (k * 1) msg * x⟩

/-! ## The decryption request and its verification
(`otssmc/protocol`, function `verifyDecryptionRequest`) -/

/-- `util.WriteTxnData`. -/
structure WriteTxnData (q : ℕ) where
  G : ZMod q
  SCPublicKeys : List (ZMod q)
  EncShares : List (PubVerShare q)
  EncProofs : List (ZMod q)
  HashEnc : Msg
  ReaderPk : ZMod q
  deriving DecidableEq, Repr

/-- The inputs of `verifyDecryptionRequest`, with the block payloads already
unmarshaled into their structured form (the source type-asserts a well-formed
`DataOCS` with a `WriteTxn` resp. `Read` payload) and the deterministic
recomputed hashes carried as fields:
`writeSBHash = WriteTxnSBF.CalculateHash()`,
`readSBHash = ReadTxnSBF.CalculateHash()`,
`drdHash = SHA256(network.Marshal(decReqData))`. -/
structure DecReqInput (q : ℕ) where
  writeTxnData : WriteTxnData q
  readDataID : Msg
  proofHash : Msg
  proofSig : Msg
  acPublicKeys : List (ZMod q)
  writeSBHash : Msg
  readSBHash : Msg
  drdHash : Msg
  deriving DecidableEq, Repr

/-- `verifyDecryptionRequest(decReqData, sig)`:
1. verify the reader's Schnorr signature over the request hash under the
   write transaction's reader public key;
2. require a non-empty forward-link signature, the forward-link hash to equal
   the recomputed read-block hash, and the collective signature to verify
   under the access-control public keys;
3. require the read transaction's `DataID` to equal the recomputed
   write-block hash.
Returns the write-transaction data on success. -/
def verifyDecryptionRequest {q : ℕ} (env : Env q) (inp : DecReqInput q)
    (sig : SchnorrSig q) : Except OcsError (WriteTxnData q) :=
  if schnorrVerify env inp.writeTxnData.ReaderPk inp.drdHash sig = false then
    .error .schnorrSigFailed
  else if inp.proofSig = [] then .error .emptyForwardLinkSig
  else if inp.proofHash ≠ inp.readSBHash then .error .forwardLinkHashMismatch
  else if env.cosiVerify inp.acPublicKeys inp.proofHash inp.proofSig = false then
    .error .cosiSigFailed
  else if inp.readDataID ≠ inp.writeSBHash then .error .invalidWriteHash
  else .ok inp.writeTxnData

/-! ## ElGamal re-encryption of a decrypted share (`otssmc/protocol`) -/

/-- `util.DecryptedShare`: the re-encrypted share a trustee replies with
(`K = nil, Cs = nil` is the failure reply). -/
structure DecryptedShare (q : ℕ) where
  K : Option (ZMod q)
  Cs : List (ZMod q)
  deriving DecidableEq, Repr

/-- The chunking loop shared by `elGamalEncrypt` and `EncodeKey`: as long as
bytes remain, pick a point embedding the next `pickLen`-byte chunk and mask
it with `S`.  The loop is driven by a fuel argument (the source terminates
because `PickLen() ≥ 1`). -/
def chunkCs {q : ℕ} (embedPt : Msg → ZMod q) (pickLen : ℕ) (S : ZMod q) :
    ℕ → Msg → List (ZMod q)
  | 0, _ => []
  | fuel + 1, msg =>
    if msg = [] then []
    else (S + embedPt (msg.take pickLen)) :: chunkCs embedPt pickLen S fuel (msg.drop pickLen)

/-- `elGamalEncrypt(ds, rPubKey)` with ephemeral scalar `k`:
`K := k·g`, `S := k·rPubKey`, and each chunk point `kp` of the marshaled
share yields `C := S + kp`. -/
def elGamalEncrypt {q : ℕ} (env : Env q) (ds : PubVerShare q) (rPubKey k : ZMod q) :
    ZMod q × List (ZMod q) :=
  let msg := env.marshalShare ds
  (k * 1, chunkCs env.embedPt env.pickLen (k * rPubKey) msg.length msg)

/-! ## Per-trustee dispatch (`OTSDecrypt.Dispatch`) -/

/-- The share-index selection of a leaf: `idx := p.Index()`, swapped to `0`
when it equals the announced root index. -/
def leafShareIdx (ownIdx rootIdx : ℕ) : ℕ :=
  if ownIdx = rootIdx then 0 else ownIdx

/-- The share-index selection of the root: `idx := p.RootIndex`. -/
def rootShareIdx (rootIdx : ℕ) : ℕ :=
  rootIdx

/-- The share processed by the node at tree position `j` (the protocol tree
is rooted at the node the reader contacted, so position `0` is the root). -/
def treeAssign (rootIdx j : ℕ) : ℕ :=
  if j = 0 then rootShareIdx rootIdx else leafShareIdx j rootIdx

/-- The body of `OTSDecrypt.Dispatch` for a given share index `idx`: verify
the request (returning its error without any reply on failure), look up the
encrypted share and its commitment (a Go out-of-range index is a panic,
`indexPanic`), then `DecShare` — whose failure yields the `nil` reply — and
on success the ElGamal re-encryption under the reader key.  `v`, `c`, `k`
are the randomness/challenge parameters of the two proofs. -/
def dispatchBody {q : ℕ} (env : Env q) (inp : DecReqInput q) (sig : SchnorrSig q)
    (idx : ℕ) (pub priv v c k : ZMod q) : Except OcsError (DecryptedShare q) :=
  match verifyDecryptionRequest env inp sig with
  | .error e => .error e
  | .ok wtd =>
    let h := env.hpoint wtd.ReaderPk
    match wtd.EncProofs.get? idx, wtd.EncShares.get? idx with
    | some sH, some es =>
      match DecShare h pub sH priv es v c with
      | .error _ => .ok ⟨none, []⟩
      | .ok tempSh =>
        let KCs := elGamalEncrypt env tempSh wtd.ReaderPk k
        .ok ⟨some KCs.1, KCs.2⟩
    | _, _ => .error .indexPanic

/-- The leaf branch of `Dispatch`: the processed index is the leaf's own
tree index with the `idx == RootIndex → 0` swap. -/
def leafDispatch {q : ℕ} (env : Env q) (inp : DecReqInput q) (sig : SchnorrSig q)
    (ownIdx rootIdx : ℕ) (pub priv v c k : ZMod q) : Except OcsError (DecryptedShare q) :=
  dispatchBody env inp sig (leafShareIdx ownIdx rootIdx) pub priv v c k

/-- The root branch of `Dispatch`: the processed index is `RootIndex`. -/
def rootDispatch {q : ℕ} (env : Env q) (inp : DecReqInput q) (sig : SchnorrSig q)
    (rootIdx : ℕ) (pub priv v c k : ZMod q) : Except OcsError (DecryptedShare q) :=
  dispatchBody env inp sig (rootShareIdx rootIdx) pub priv v c k

/-! ## The reader pipeline (`otsclient/ots.go`) -/

/-- `ElGamalDecrypt(shares, privKey)`: for each reply, recover the chunk
bytes `Data(C − privKey·K)` (a `Data` error is silently ignored by the
source: `decShPartData, _ := decShPart.Data()`), concatenate them, and
unmarshal the result into a `pvss.PubVerShare`; the first unmarshal failure
aborts the whole function.  A `nil` `K` denotes the standard base point
(`Point().Mul(nil, k)` in the suite).  -/
def elGamalDecrypt {q : ℕ} (env : Env q) (shares : List (DecryptedShare q))
    (privKey : ZMod q) : Except OcsError (List (PubVerShare q)) :=
  match optMapM (fun sh =>
    env.unmarshalShare
      ((sh.Cs.map (fun C => (env.ptData (C - privKey * (sh.K.getD 1))).getD [])).join))
    shares with
  | none => .error .parseError
  | some l => .ok l

/-- The reordering loop of `GetDecryptedShares`: write each deserialized
share into slot `S.I` of a slice of length `size = number of replies`.  A
slot index outside `[0, size)` is a Go slice-bounds panic, modelled as
`none`. -/
def reorderAux {q : ℕ} : List (PubVerShare q) → List (Option (PubVerShare q)) →
    Option (List (Option (PubVerShare q)))
  | [], arr => some arr
  | sh :: rest, arr =>
    if 0 ≤ sh.S.I ∧ sh.S.I < (arr.length : ℤ) then
      reorderAux rest (arr.set sh.S.I.toNat (some sh))
    else none

/-- `GetDecryptedShares`, reordering step: `decShares := make([], size)`;
`decShares[tmpDecShares[i].S.I] = tmpDecShares[i]`. -/
def reorderShares {q : ℕ} (tmpDecShares : List (PubVerShare q)) :
    Option (List (Option (PubVerShare q))) :=
  reorderAux tmpDecShares (List.replicate tmpDecShares.length none)

/-- The tail of `GetDecryptedShares`: ElGamal-decrypt the gathered replies
and reorder them by their embedded share index. -/
def getDecryptedShares {q : ℕ} (env : Env q) (replies : List (DecryptedShare q))
    (privKey : ZMod q) : Except OcsError (List (Option (PubVerShare q))) :=
  match elGamalDecrypt env replies privKey with
  | .error e => .error e
  | .ok tmp =>
    match reorderShares tmp with
    | none => .error .indexPanic
    | some arr => .ok arr

/-! ## The ledger read-verification predicate (`Service.verifyOCS`, read
branch) -/

/-- A block of the OCS skipchain bunch as consulted by the read branch of
`verifyOCS`: its hash, whether its payload is a write transaction, and the
`Readers` block stored alongside it (`none` when absent). -/
structure OcsBlock (q : ℕ) where
  hash : Msg
  isWriteTxn : Bool
  readers : Option (List (ZMod q))
  deriving DecidableEq, Repr

/-- A read transaction: `DataID`, the reader's public key and the Schnorr
signature over `DataID`. -/
structure ReadModel (q : ℕ) where
  dataID : Msg
  public : ZMod q
  signature : SchnorrSig q
  deriving DecidableEq, Repr

/-- The read branch of `Service.verifyOCS`: search the bunch for a write
transaction block whose hash equals the read's `DataID`; fail when none is
found or it carries no readers block; otherwise accept iff the read's
signature over `DataID` verifies under at least one listed reader public
key.  (The read's own `Public` field is never consulted.) -/
def verifyOCSRead {q : ℕ} (env : Env q) (bunch : List (OcsBlock q))
    (read : ReadModel q) : Bool :=
  match bunch.find? (fun b => b.isWriteTxn && decide (b.hash = read.dataID)) with
  | none => false
  | some b =>
    match b.readers with
    | none => false
    | some rl => rl.any (fun pk => schnorrVerify env pk read.dataID read.signature)

/-! ## Symmetric-key encoding (`ots/protocol/onchain.go`) -/

/-- `EncodeKey(suite, X, key)` with blinding scalar `r`: `U := r·g`, and each
chunk point `kp` of the key is output as `C := r·X + kp`. -/
def EncodeKey {q : ℕ} (env : Env q) (X : ZMod q) (key : Msg) (r : ZMod q) :
    ZMod q × List (ZMod q) :=
  (r * 1, chunkCs env.embedPt env.pickLen (r * X) key.length key)

/-- `DecodeKey(suite, X, Cs, XhatEnc, xc)`:
`XhatDec := −xc·X`, `Xhat := XhatEnc + XhatDec`, `XhatInv := −Xhat`, and each
key part is `Data(C + XhatInv)` (a `Data` failure is returned as an error);
the parts are concatenated. -/
def DecodeKey {q : ℕ} (env : Env q) (X : ZMod q) (Cs : List (ZMod q))
    (XhatEnc : ZMod q) (xc : ZMod q) : Except OcsError Msg :=
  match optMapM (fun C => env.ptData (C + -(XhatEnc + -xc * X))) Cs with
  | none => .error .parseError
  | some parts => .ok parts.join

theorem recoverCommit_ne_tooFew {q : ℕ} (shares : List (Option (PubShare q))) (t n : ℕ) :
    RecoverCommit shares t n ≠ .error .tooFewShares := by
  simp only [RecoverCommit]
  split
  · simp
  · split <;> simp

/-! ## Claims -/

/-- C1 (amended).  Threshold invariant, as the code realises it: for every
write by a correct writer — shares of a polynomial with coefficient list
`coeffs` (degree `< t` since `coeffs.length = t`), decrypted shares whose
values lie on the polynomial over the base point `gpt` and whose decryption
proofs all verify — every aligned share vector of length `≥ t` with distinct
in-range indices fed to `RecoverSecret` recovers
`p(0)·g = evalPoly coeffs 0 * gpt`.  The recovered value does not depend on
which shares were chosen, since every admissible choice yields this same
point.  (The claim's `S = p(0)·h` is wrong: `RecoverSecret` interpolates the
decrypted shares `V_i = p(i)·g` over the standard base `g`, not over the
session point `h`; see the counterexample.) -/
theorem c1_threshold_invariant {q : ℕ} [Fact q.Prime] (G : ZMod q) (X : List (ZMod q))
    (enc dec : List (PubVerShare q)) (t n : ℕ) (coeffs : List (ZMod q)) (gpt : ZMod q)
    (hlx : X.length = enc.length) (hle : enc.length = dec.length)
    (hver : ∀ k, k < dec.length →
      VerifyDecShare G (X.getD k 0) (enc.getD k default) (dec.getD k default) = true)
    (ht : t ≤ dec.length)
    (hlen : coeffs.length ≤ dec.length)
    (hIrange : ∀ k, k < dec.length →
      0 ≤ (dec.getD k default).S.I ∧ (dec.getD k default).S.I < (n : ℤ))
    (hinj : ∀ i, i < dec.length → ∀ j, j < dec.length → i ≠ j →
      xval (dec.getD i default).S ≠ xval (dec.getD j default).S)
    (hV : ∀ k, k < dec.length →
      (dec.getD k default).S.V = evalPoly coeffs (xval (dec.getD k default).S) * gpt) :
    RecoverSecret G X enc dec t n = .ok (evalPoly coeffs 0 * gpt) :=
  RecoverSecret_honest G X enc dec t n coeffs gpt hlx hle hver ht hlen hIrange hinj hV

/-- C1, counterexample to the claim as stated.  A complete honest run over
`ZMod 5` with session point `h = 2` (the hash-to-point of the reader key),
base `g = 1`, polynomial `p(x) = 1 + x` (`coeffs = [1, 1]`, `t = 2`,
`n = 3`), trustee keys `x_i = 1`: the writer's shares come from `EncShares`,
each trustee's decrypted share is the honest output of `DecShare`, and
`RecoverSecret` returns `p(0)·g = 1` — which differs from the
`p(0)·h = 1·2 = 2` asserted by the claim. -/
theorem c1_counterexample :
    RecoverSecret (q := 5) 1 [1, 1, 1] (EncShares 2 [1, 1, 1] [1, 1] (fun _ => 0) 1)
      [⟨⟨0, 2⟩, ⟨1, 4, 0, 0⟩⟩, ⟨⟨1, 3⟩, ⟨1, 4, 0, 0⟩⟩, ⟨⟨2, 4⟩, ⟨1, 4, 0, 0⟩⟩] 2 3
      = .ok (evalPoly [1, 1] 0 * 1)
  ∧ (∀ i ∈ List.range 3,
      DecShare (q := 5) 2 1 ((encProofsOf 2 [1, 1] 3).getD i 0) 1
        ((EncShares 2 [1, 1, 1] [1, 1] (fun _ => 0) 1).getD i default) 0 1
      = .ok ([⟨⟨0, 2⟩, ⟨1, 4, 0, 0⟩⟩, ⟨⟨1, 3⟩, ⟨1, 4, 0, 0⟩⟩,
              ⟨⟨2, 4⟩, ⟨1, 4, 0, 0⟩⟩].getD i default))
  ∧ evalPoly (q := 5) [1, 1] 0 * 1 ≠ evalPoly [1, 1] 0 * 2 := by
  decide

/-- C1, witness: the amended theorem applied to the concrete honest run of
the counterexample (`q = 5`, `p(x) = 1 + x`, three valid shares, `t = 2`). -/
theorem c1_witness :
    RecoverSecret (q := 5) 1 [1, 1, 1] (EncShares 2 [1, 1, 1] [1, 1] (fun _ => 0) 1)
      [⟨⟨0, 2⟩, ⟨1, 4, 0, 0⟩⟩, ⟨⟨1, 3⟩, ⟨1, 4, 0, 0⟩⟩, ⟨⟨2, 4⟩, ⟨1, 4, 0, 0⟩⟩] 2 3
      = .ok (evalPoly [1, 1] 0 * 1) := by
  exact @c1_threshold_invariant 5 ⟨by norm_num⟩ 1 [1, 1, 1]
    (EncShares 2 [1, 1, 1] [1, 1] (fun _ => 0) 1)
    [⟨⟨0, 2⟩, ⟨1, 4, 0, 0⟩⟩, ⟨⟨1, 3⟩, ⟨1, 4, 0, 0⟩⟩, ⟨⟨2, 4⟩, ⟨1, 4, 0, 0⟩⟩] 2 3 [1, 1] 1
    (by decide) (by decide) (by decide) (by decide) (by decide) (by decide) (by decide)
    (by decide)

/-- C6.  Threshold behaviour of `RecoverSecret`:
(i) it fails with the `TooFewShares` error exactly when the input lengths
agree and fewer than `t` decrypted shares pass the batch DLEQ
decryption-proof verification (mismatched lengths yield the distinct
`differentLengths` error, and the reconstruction step can only produce the
distinct not-enough-good-shares / panic outcomes);
(ii) with exactly `t` valid honest shares it succeeds and returns the
interpolated point `p(0)·g`;
(iii) with exactly `t − 1` valid shares it fails with `TooFewShares`. -/
theorem c6_recover_secret_threshold {q : ℕ} [Fact q.Prime] :
    (∀ (G : ZMod q) (X : List (ZMod q)) (enc dec : List (PubVerShare q)) (t n : ℕ),
      RecoverSecret G X enc dec t n = .error .tooFewShares ↔
        (X.length = enc.length ∧ enc.length = dec.length ∧
          ((X.zip (enc.zip dec)).filter
            (fun tr => VerifyDecShare G tr.1 tr.2.1 tr.2.2)).length < t))
  ∧ (∀ (G : ZMod q) (X : List (ZMod q)) (enc dec : List (PubVerShare q)) (t n : ℕ)
      (coeffs : List (ZMod q)) (gpt : ZMod q),
      X.length = enc.length → enc.length = dec.length →
      (∀ k, k < dec.length →
        VerifyDecShare G (X.getD k 0) (enc.getD k default) (dec.getD k default) = true) →
      dec.length = t →
      coeffs.length ≤ dec.length →
      (∀ k, k < dec.length →
        0 ≤ (dec.getD k default).S.I ∧ (dec.getD k default).S.I < (n : ℤ)) →
      (∀ i, i < dec.length → ∀ j, j < dec.length → i ≠ j →
        xval (dec.getD i default).S ≠ xval (dec.getD j default).S) →
      (∀ k, k < dec.length →
        (dec.getD k default).S.V = evalPoly coeffs (xval (dec.getD k default).S) * gpt) →
      RecoverSecret G X enc dec t n = .ok (evalPoly coeffs 0 * gpt))
  ∧ (∀ (G : ZMod q) (X : List (ZMod q)) (enc dec : List (PubVerShare q)) (t n : ℕ),
      X.length = enc.length → enc.length = dec.length →
      ((X.zip (enc.zip dec)).filter
        (fun tr => VerifyDecShare G tr.1 tr.2.1 tr.2.2)).length = t - 1 →
      1 ≤ t →
      RecoverSecret G X enc dec t n = .error .tooFewShares) := by
  have hiff : ∀ (G : ZMod q) (X : List (ZMod q)) (enc dec : List (PubVerShare q)) (t n : ℕ),
      RecoverSecret G X enc dec t n = .error .tooFewShares ↔
        (X.length = enc.length ∧ enc.length = dec.length ∧
          ((X.zip (enc.zip dec)).filter
            (fun tr => VerifyDecShare G tr.1 tr.2.1 tr.2.2)).length < t) := by
    intro G X enc dec t n
    by_cases hL : X.length ≠ enc.length ∨ enc.length ≠ dec.length
    · have hb : VerifyDecShareBatch G X enc dec = .error .differentLengths := by
        rw [VerifyDecShareBatch, if_pos hL]
      simp only [RecoverSecret, hb]
      constructor
      · intro h
        exact absurd h (by simp)
      · rintro ⟨h1, h2, _⟩
        exfalso
        rcases hL with h | h
        exacts [h h1, h h2]
    · have hb : VerifyDecShareBatch G X enc dec =
          .ok (((X.zip (enc.zip dec)).filter
            (fun tr => VerifyDecShare G tr.1 tr.2.1 tr.2.2)).map (fun tr => tr.2.2)) := by
        rw [VerifyDecShareBatch, if_neg hL]
      push_neg at hL
      simp only [RecoverSecret, hb]
      by_cases hD : ((X.zip (enc.zip dec)).filter
          (fun tr => VerifyDecShare G tr.1 tr.2.1 tr.2.2)).length < t
      · rw [if_pos (by rwa [List.length_map])]
        exact ⟨fun _ => ⟨hL.1, hL.2, hD⟩, fun _ => rfl⟩
      · rw [if_neg (by rwa [List.length_map])]
        constructor
        · intro h
          exact absurd h (recoverCommit_ne_tooFew _ _ _)
        · rintro ⟨_, _, h⟩
          exact absurd h hD
  refine ⟨hiff, ?_, ?_⟩
  · intro G X enc dec t n coeffs gpt h1 h2 h3 h4 h5 h6 h7 h8
    exact RecoverSecret_honest G X enc dec t n coeffs gpt h1 h2 h3 (le_of_eq h4.symm) h5 h6 h7 h8
  · intro G X enc dec t n h1 h2 hc ht
    exact (hiff G X enc dec t n).mpr ⟨h1, h2, by omega⟩

/-- C6, witness: the three parts at concrete inputs over `ZMod 5` —
(i) empty inputs with `t = 1` fail with `TooFewShares`; (ii) the honest run
with exactly `t = 3` valid shares succeeds with `p(0)·g`; (iii) one valid
share with `t = 2` fails with `TooFewShares`. -/
theorem c6_witness :
    RecoverSecret (q := 5) 1 [] [] [] 1 1 = .error .tooFewShares
  ∧ RecoverSecret (q := 5) 1 [1, 1, 1] (EncShares 2 [1, 1, 1] [1, 1] (fun _ => 0) 1)
      [⟨⟨0, 2⟩, ⟨1, 4, 0, 0⟩⟩, ⟨⟨1, 3⟩, ⟨1, 4, 0, 0⟩⟩, ⟨⟨2, 4⟩, ⟨1, 4, 0, 0⟩⟩] 3 3
      = .ok (evalPoly [1, 1] 0 * 1)
  ∧ RecoverSecret (q := 5) 1 [1] [⟨⟨0, 2⟩, ⟨1, 1, 0, 0⟩⟩]
      [⟨⟨0, 2⟩, ⟨1, 4, 0, 0⟩⟩] 2 3 = .error .tooFewShares := by
  refine ⟨?_, ?_, ?_⟩
  · exact ((@c6_recover_secret_threshold 5 ⟨by norm_num⟩).1 1 [] [] [] 1 1).mpr (by decide)
  · exact (@c6_recover_secret_threshold 5 ⟨by norm_num⟩).2.1 1 [1, 1, 1]
      (EncShares 2 [1, 1, 1] [1, 1] (fun _ => 0) 1)
      [⟨⟨0, 2⟩, ⟨1, 4, 0, 0⟩⟩, ⟨⟨1, 3⟩, ⟨1, 4, 0, 0⟩⟩, ⟨⟨2, 4⟩, ⟨1, 4, 0, 0⟩⟩] 3 3 [1, 1] 1
      (by decide) (by decide) (by decide) (by decide) (by decide) (by decide) (by decide)
      (by decide)
  · exact (@c6_recover_secret_threshold 5 ⟨by norm_num⟩).2.2 1 [1]
      [⟨⟨0, 2⟩, ⟨1, 1, 0, 0⟩⟩] [⟨⟨0, 2⟩, ⟨1, 4, 0, 0⟩⟩] 2 3
      (by decide) (by decide) (by decide) (by decide)

/-- C9 (amended).  `share.RecoverCommit` performs no duplicate-index check:
(i) whenever at least `t` shares survive the nil/range filter but two of
them have equal abscissas (in particular, duplicate indices), the Lagrange
loop divides by zero — `big.Int.ModInverse` yields no inverse and the
subsequent `big.Int.Mul` is a runtime panic (`divZeroPanic`), reached inside
the interpolation rather than by an up-front rejection;
(ii) fewer than `t` surviving shares instead fail with the distinct
not-enough-good-shares error. -/
theorem c9_duplicate_indices {q : ℕ} [Fact q.Prime] :
    (∀ (shares : List (Option (PubShare q))) (t n i j : ℕ),
      i < (rcSelect n shares).length → j < (rcSelect n shares).length → i ≠ j →
      xval ((rcSelect n shares).getD i default) = xval ((rcSelect n shares).getD j default) →
      ¬ (rcSelect n shares).length < t →
      RecoverCommit shares t n = .error .divZeroPanic)
  ∧ (∀ (shares : List (Option (PubShare q))) (t n : ℕ),
      (rcSelect n shares).length < t →
      RecoverCommit shares t n = .error .notEnoughGoodShares) := by
  constructor
  · intro shares t n i j hi hj hij hxx ht
    have hq : 1 < q := (Fact.out (p := q.Prime)).one_lt
    have hterm : rcTerm (rcSelect n shares) i = none := by
      have hmem : xval ((rcSelect n shares).getD j default) -
          xval ((rcSelect n shares).getD i default) ∈
          ((((List.range (rcSelect n shares).length).filter (fun k => k ≠ i)).map
            (fun k => xval ((rcSelect n shares).getD k default))).map
            (fun xj => xj - xval ((rcSelect n shares).getD i default))) := by
        refine List.mem_map_of_mem _ (List.mem_map_of_mem _ ?_)
        rw [List.mem_filter]
        exact ⟨List.mem_range.mpr hj, by simpa using (Ne.symm hij)⟩
      have hzero : ((((List.range (rcSelect n shares).length).filter (fun k => k ≠ i)).map
          (fun k => xval ((rcSelect n shares).getD k default))).map
          (fun xj => xj - xval ((rcSelect n shares).getD i default))).prod = 0 := by
        refine List.prod_eq_zero ?_
        rw [hxx] at hmem ⊢
        simpa using hmem
      simp only [rcTerm, hzero, scalarDiv_zero hq, Option.map_none']
    have hmapM : optMapM (rcTerm (rcSelect n shares))
        (List.range (rcSelect n shares).length) = none :=
      optMapM_eq_none _ _ i (List.mem_range.mpr hi) hterm
    simp only [RecoverCommit]
    rw [if_neg ht, hmapM]
  · intro shares t n ht
    simp only [RecoverCommit]
    rw [if_pos ht]

/-- C9, counterexample to the claim as stated: the input
`[⟨I := 0⟩, ⟨I := 0⟩]` with two shares carrying the same index `0` is *not*
rejected before interpolation — `RecoverCommit` enters the Lagrange loop and
dies on the division by zero (the modelled `ModInverse`/`Mul` runtime
panic), an outcome distinct from both error returns of the function. -/
theorem c9_counterexample :
    RecoverCommit (q := 5) [some ⟨0, 2⟩, some ⟨0, 2⟩] 2 3 = .error .divZeroPanic
  ∧ OcsError.divZeroPanic ≠ OcsError.notEnoughGoodShares := by
  decide

/-- C9, witness: part (i) at the concrete duplicate input
`[⟨I := 1⟩, ⟨I := 1⟩]` and part (ii) at a single-share input with `t = 3`. -/
theorem c9_witness :
    RecoverCommit (q := 5) [some ⟨1, 3⟩, some ⟨1, 4⟩] 2 3 = .error .divZeroPanic
  ∧ RecoverCommit (q := 5) [some ⟨0, 2⟩, some ⟨1, 3⟩] 3 3
      = .error .notEnoughGoodShares := by
  refine ⟨?_, ?_⟩
  · exact (@c9_duplicate_indices 5 ⟨by norm_num⟩).1 [some ⟨1, 3⟩, some ⟨1, 4⟩] 2 3 0 1
      (by decide) (by decide) (by decide) (by decide) (by decide)
  · exact (@c9_duplicate_indices 5 ⟨by norm_num⟩).2 [some ⟨0, 2⟩, some ⟨1, 3⟩] 3 3 (by decide)

theorem reorderAux_isSome {q : ℕ} : ∀ (L : List (PubVerShare q))
    (arr : List (Option (PubVerShare q))),
    (∀ sh ∈ L, 0 ≤ sh.S.I ∧ sh.S.I < (arr.length : ℤ)) →
    (reorderAux L arr).isSome = true := by
  intro L
  induction L with
  | nil => intro arr _; rfl
  | cons sh rest ih =>
    intro arr h
    have hsh := h sh (List.mem_cons_self sh rest)
    simp only [reorderAux]
    rw [if_pos hsh]
    refine ih _ (fun s hs => ?_)
    have := h s (List.mem_cons_of_mem sh hs)
    simpa [List.length_set] using this

/-- A fixed concrete environment over `ZMod 5`, used by the concrete
instances: the Fiat–Shamir hash is the constant `1`, the collective
signature accepts any non-empty byte string, `hpoint` is the constant point
`2`, a share marshals to `[1, 2]`, the empty byte string does not
unmarshal (as with `network.Unmarshal`), and points embed/extract the
single byte `0`. -/
def envW : Env 5 where
  schnorrHash := fun _ _ => 1
  cosiVerify := fun _ _ s => decide (s ≠ [])
  hpoint := fun _ => 2
  marshalShare := fun _ => [1, 2]
  unmarshalShare := fun m => if m = [] then none else some default
  ptData := fun _ => some [0]
  embedPt := fun _ => 0
  pickLen := 1

/-- C10.  The reordering loop of `GetDecryptedShares` writes each share into
slot `S.I` of a slice whose length is the number of replies:
(i) when every deserialized share's index lies in `[0, size)` the loop
completes without a bounds violation;
(ii) a reply vector containing a share whose embedded index is not below
the number of replies — here a single share with `S.I = 1` — makes the
slice write go out of range (the modelled Go bounds panic `none`). -/
theorem c10_reorder_bounds {q : ℕ} :
    (∀ L : List (PubVerShare q),
      (∀ sh ∈ L, 0 ≤ sh.S.I ∧ sh.S.I < (L.length : ℤ)) →
      (reorderShares L).isSome = true)
  ∧ reorderShares (q := q) [⟨⟨1, 0⟩, default⟩] = none := by
  constructor
  · intro L h
    refine reorderAux_isSome L _ (fun sh hs => ?_)
    have := h sh hs
    simpa [List.length_replicate] using this
  · simp [reorderShares, reorderAux]

/-- C10, witness: the in-bounds part applied to a single share with index
`0`. -/
theorem c10_witness :
    (reorderShares (q := 5) [⟨⟨0, 1⟩, default⟩]).isSome = true :=
  (c10_reorder_bounds (q := 5)).1 [⟨⟨0, 1⟩, default⟩] (by decide)

/-- C4 (the code against the claim).  A `nil` trustee reply
(`K = nil, Cs = nil`) is *not* tolerated by the reader pipeline: for the
empty `Cs` the concatenated chunk bytes are empty, `network.Unmarshal` of
the empty byte string fails, and `ElGamalDecrypt` — and with it
`GetDecryptedShares` — aborts with a parse error before any threshold logic
runs, regardless of how many valid shares the vector also contains. -/
theorem c4_nil_reply_parse_error {q : ℕ} (env : Env q) (rest : List (DecryptedShare q))
    (priv : ZMod q) (hE : env.unmarshalShare [] = none) :
    elGamalDecrypt env (⟨none, []⟩ :: rest) priv = .error .parseError
  ∧ getDecryptedShares env (⟨none, []⟩ :: rest) priv = .error .parseError := by
  have h1 : elGamalDecrypt env (⟨none, []⟩ :: rest) priv = .error .parseError := by
    simp [elGamalDecrypt, optMapM, hE]
  refine ⟨h1, ?_⟩
  simp only [getDecryptedShares, h1]

/-- C4, witness: the failing reply vector `[⟨nil, nil⟩]` (`n = 1`) under the
concrete environment. -/
theorem c4_witness :
    elGamalDecrypt envW [⟨none, []⟩] 3 = .error .parseError
  ∧ getDecryptedShares envW [⟨none, []⟩] 3 = .error .parseError :=
  c4_nil_reply_parse_error envW [] 3 (by decide)

/-- C2.  A decryption request is honored iff all three checks pass.  Under
the sole assumption that the collective signature verifier rejects the empty
signature (as `cosi.VerifySignature` does):
(i) `verifyDecryptionRequest` returns the write-transaction data iff the
reader Schnorr signature over the request hash verifies under the write
transaction's reader public key, the inclusion proof's hash equals the
recomputed read-block hash and its collective signature verifies under the
access-control keys, and the read's `DataID` equals the recomputed
write-block hash;
(ii) the only success value is the write-transaction data;
(iii) on any failed check the error is propagated by `Dispatch` before any
share is decrypted. -/
theorem c2_decrypt_request_iff {q : ℕ} (env : Env q) (inp : DecReqInput q)
    (sig : SchnorrSig q)
    (hE : env.cosiVerify inp.acPublicKeys inp.proofHash [] = false) :
    (verifyDecryptionRequest env inp sig = .ok inp.writeTxnData ↔
      (schnorrVerify env inp.writeTxnData.ReaderPk inp.drdHash sig = true ∧
       (inp.proofHash = inp.readSBHash ∧
        env.cosiVerify inp.acPublicKeys inp.proofHash inp.proofSig = true) ∧
       inp.readDataID = inp.writeSBHash))
  ∧ (∀ w, verifyDecryptionRequest env inp sig = .ok w → w = inp.writeTxnData)
  ∧ (∀ e idx pub priv v c k, verifyDecryptionRequest env inp sig = .error e →
      dispatchBody env inp sig idx pub priv v c k = .error e) := by
  refine ⟨?_, ?_, ?_⟩
  · unfold verifyDecryptionRequest
    split_ifs with h1 h2 h3 h4 h5
    · simp [h1]
    · simp only [Bool.not_eq_false] at h1
      simp [h2, hE]
    · simp [h3]
    · simp [h4]
    · simp [h5]
    · simp only [Bool.not_eq_false] at h1 h4
      rw [not_not] at h3 h5
      rw [h3] at h4
      simp [h1, h3, h4, h5]
  · intro w h
    unfold verifyDecryptionRequest at h
    split_ifs at h
    · simpa using h.symm
  · intro e idx pub priv v c k h
    simp only [dispatchBody, h]

/-- The write transaction of the concrete request: reader public key `2`
(reader secret `2`, since `2·g = 2`), one encrypted share whose proof does
not verify. -/
def wtdW : WriteTxnData 5 where
  G := 1
  SCPublicKeys := [1]
  EncShares := [⟨⟨0, 0⟩, ⟨0, 1, 0, 0⟩⟩]
  EncProofs := [0]
  HashEnc := [7]
  ReaderPk := 2

/-- A concrete decryption request whose three checks all pass. -/
def inpW : DecReqInput 5 where
  writeTxnData := wtdW
  readDataID := [9]
  proofHash := [8]
  proofSig := [1]
  acPublicKeys := [1]
  writeSBHash := [9]
  readSBHash := [8]
  drdHash := [5]

/-- The reader's honest signature over the request hash (reader secret `2`,
commitment randomness `0`). -/
def sigW : SchnorrSig 5 :=
  schnorrSign envW 2 0 [5]

/-- C2, witness: the concrete request with all three checks passing is
honored, returning the write-transaction data. -/
theorem c2_witness : verifyDecryptionRequest envW inpW sigW = .ok wtdW :=
  (c2_decrypt_request_iff envW inpW sigW (by decide)).1.mpr (by decide)

/-- C5 (amended).  Failure handling in `OTSDecrypt.Dispatch`:
(i) a request-verification failure (signature, inclusion proof, write hash)
makes `Dispatch` — leaf and root alike — return that error *without sending
any reply*;
(ii) only a share-decryption failure (the `DecShare` encryption-proof check)
produces the `K = nil, Cs = nil` reply, which is sent;
(iii) the leaf and root branches are the common body at their respective
share indices. -/
theorem c5_failure_handling {q : ℕ} :
    (∀ (env : Env q) (inp : DecReqInput q) (sig : SchnorrSig q) (e : OcsError)
       (ownIdx rootIdx : ℕ) (pub priv v c k : ZMod q),
      verifyDecryptionRequest env inp sig = .error e →
      leafDispatch env inp sig ownIdx rootIdx pub priv v c k = .error e ∧
      rootDispatch env inp sig rootIdx pub priv v c k = .error e)
  ∧ (∀ (env : Env q) (inp : DecReqInput q) (sig : SchnorrSig q) (idx : ℕ)
       (pub priv v c k sH : ZMod q) (es : PubVerShare q),
      verifyDecryptionRequest env inp sig = .ok inp.writeTxnData →
      inp.writeTxnData.EncProofs.get? idx = some sH →
      inp.writeTxnData.EncShares.get? idx = some es →
      VerifyEncShare (env.hpoint inp.writeTxnData.ReaderPk) pub sH es = false →
      dispatchBody env inp sig idx pub priv v c k = .ok ⟨none, []⟩)
  ∧ (∀ (env : Env q) (inp : DecReqInput q) (sig : SchnorrSig q)
       (ownIdx rootIdx : ℕ) (pub priv v c k : ZMod q),
      leafDispatch env inp sig ownIdx rootIdx pub priv v c k
        = dispatchBody env inp sig (leafShareIdx ownIdx rootIdx) pub priv v c k ∧
      rootDispatch env inp sig rootIdx pub priv v c k
        = dispatchBody env inp sig (rootShareIdx rootIdx) pub priv v c k) := by
  refine ⟨?_, ?_, ?_⟩
  · intro env inp sig e ownIdx rootIdx pub priv v c k h
    constructor <;> simp only [leafDispatch, rootDispatch, dispatchBody, h]
  · intro env inp sig idx pub priv v c k sH es hok hsH hes hfail
    have hdec : DecShare (env.hpoint inp.writeTxnData.ReaderPk) pub sH priv es v c
        = .error .encVerification := by
      rw [DecShare, if_neg (by simp [hfail])]
    simp only [dispatchBody, hok, hsH, hes, hdec]
  · intro env inp sig ownIdx rootIdx pub priv v c k
    exact ⟨rfl, rfl⟩

/-- C5, counterexample to the claim as stated: a request whose reader
signature is invalid.  The leaf trustee does *not* produce the
`K = nil, Cs = nil` reply the claim asserts — `Dispatch` returns the
signature error and no reply is sent at all. -/
theorem c5_counterexample :
    leafDispatch envW inpW ⟨0, 0⟩ 1 0 1 1 0 1 0 = .error .schnorrSigFailed
  ∧ leafDispatch envW inpW ⟨0, 0⟩ 1 0 1 1 0 1 0 ≠ .ok ⟨none, []⟩ := by
  decide

/-- C5, witness: the amended theorem at the concrete request — the request
verifies but the encrypted share's proof does not, and the trustee sends the
`nil` reply. -/
theorem c5_witness :
    dispatchBody envW inpW sigW 0 1 1 0 1 0 = .ok ⟨none, []⟩ :=
  c5_failure_handling.2.1 envW inpW sigW 0 1 1 0 1 0 0 ⟨⟨0, 0⟩, ⟨0, 1, 0, 0⟩⟩
    (by decide) (by decide) (by decide) (by decide)

/-- C3 (amended).  The ledger's read-verify predicate:
(i) it accepts a read block iff the bunch contains a write-transaction block
whose hash equals the read's `data_id`, that block carries a readers block,
and the read's Schnorr signature over `data_id` verifies under *some* public
key listed in the readers block — the read's own `reader_pk` field is never
consulted (see the counterexample);
(ii) completeness: an honest signature produced with the secret key of a
listed reader always verifies. -/
theorem c3_read_verify_iff {q : ℕ} :
    (∀ (env : Env q) (bunch : List (OcsBlock q)) (read : ReadModel q),
      verifyOCSRead env bunch read = true ↔
        ∃ b, bunch.find? (fun b => b.isWriteTxn && decide (b.hash = read.dataID)) = some b ∧
          ∃ rl, b.readers = some rl ∧
            ∃ pk ∈ rl, schnorrVerify env pk read.dataID read.signature = true)
  ∧ (∀ (env : Env q) (x k : ZMod q) (m : Msg),
      schnorrVerify env (x * 1) m (schnorrSign env x k m) = true) := by
  constructor
  · intro env bunch read
    rcases hfind : bunch.find?
        (fun b => b.isWriteTxn && decide (b.hash = read.dataID)) with _ | b
    · simp [verifyOCSRead, hfind]
    · rcases hr : b.readers with _ | rl
      · simp [verifyOCSRead, hfind, hr]
      · simp [verifyOCSRead, hfind, hr, List.any_eq_true]
  · intro env x k m
    have harg : (k - env.schnorrHash (k * 1) m * x) * 1 +
        env.schnorrHash (k * 1) m * (x * 1) = k * 1 := by ring
    simp only [schnorrVerify, schnorrSign, harg, decide_eq_true_eq]

/-- C3, counterexample to the claim as stated: a read whose `reader_pk`
field is `3`, *not* listed in the write's readers list `[2]`, but whose
signature was produced with the secret key of the listed reader `2`.  The
predicate accepts the append instead of rejecting it: it checks the
signature against every listed key and ignores the read's `reader_pk`
field. -/
theorem c3_counterexample :
    verifyOCSRead envW [⟨[3], true, some [2]⟩] ⟨[3], 3, schnorrSign envW 2 0 [3]⟩ = true
  ∧ (3 : ZMod 5) ∉ ([2] : List (ZMod 5)) := by
  decide

theorem chunk_roundtrip {q : ℕ} (env : Env q) (S M : ZMod q) (key : Msg)
    (hpl : 1 ≤ env.pickLen)
    (hM : ∀ e : ZMod q, (S + e) + M = e)
    (hpick : ∀ rem : Msg, rem ≠ [] → rem.IsSuffix key →
      env.ptData (env.embedPt (rem.take env.pickLen)) = some (rem.take env.pickLen)) :
    ∀ (fuel : ℕ) (rem : Msg), rem.length ≤ fuel → rem.IsSuffix key →
    ∃ parts, optMapM (fun C => env.ptData (C + M))
        (chunkCs env.embedPt env.pickLen S fuel rem) = some parts ∧ parts.join = rem := by
  intro fuel
  induction fuel with
  | zero =>
    intro rem hlen _
    have hnil : rem = [] := List.eq_nil_of_length_eq_zero (Nat.le_zero.mp hlen)
    subst hnil
    exact ⟨[], rfl, rfl⟩
  | succ f ih =>
    intro rem hlen hsfx
    by_cases hrem : rem = []
    · subst hrem
      exact ⟨[], rfl, rfl⟩
    · have hhead : env.ptData ((S + env.embedPt (rem.take env.pickLen)) + M)
          = some (rem.take env.pickLen) := by
        rw [hM]
        exact hpick rem hrem hsfx
      have hpos : 0 < rem.length := List.length_pos.mpr hrem
      have hlen' : (rem.drop env.pickLen).length ≤ f := by
        rw [List.length_drop]
        omega
      have hsfx' : (rem.drop env.pickLen).IsSuffix key :=
        (List.drop_suffix env.pickLen rem).trans hsfx
      obtain ⟨parts, h1, h2⟩ := ih (rem.drop env.pickLen) hlen' hsfx'
      refine ⟨rem.take env.pickLen :: parts, ?_, ?_⟩
      · simp only [chunkCs, if_neg hrem, optMapM, hhead, h1, Option.map_some']
      · simp [h2]

/-- C8.  Key-encoding round trip: for every symmetric key (in particular of
length 16, 32 or 64 bytes), committee secret `x` with aggregate public key
`X = x·g`, reader secret `xc` and blinding scalar `r`, if
`(U, Cs) = EncodeKey(suite, X, key)` and `XhatEnc = x·U + xc·X` is the
correctly re-encrypted commit, then `DecodeKey(suite, X, Cs, XhatEnc, xc)`
returns exactly `key`.  The two hypotheses state what the suite guarantees:
a point embeds at least one byte, and extracting data from a point that
embedded a chunk of the key returns that chunk. -/
theorem c8_key_roundtrip {q : ℕ} (env : Env q) (x xc r : ZMod q) (key : Msg)
    (hpl : 1 ≤ env.pickLen)
    (hpick : ∀ rem : Msg, rem ≠ [] → rem.IsSuffix key →
      env.ptData (env.embedPt (rem.take env.pickLen)) = some (rem.take env.pickLen)) :
    DecodeKey env (x * 1) (EncodeKey env (x * 1) key r).2
      (x * (EncodeKey env (x * 1) key r).1 + xc * (x * 1)) xc = .ok key := by
  simp only [EncodeKey]
  obtain ⟨parts, h1, h2⟩ := chunk_roundtrip env (r * (x * 1))
    (-(x * (r * 1) + xc * (x * 1) + -xc * (x * 1))) key hpl (by intro e; ring) hpick
    key.length key le_rfl (List.suffix_refl key)
  simp only [DecodeKey, h1]
  rw [h2]

/-- C8, witness: a 16-byte all-zero key under the concrete environment
(committee secret `2`, reader secret `4`, blinding scalar `3`). -/
theorem c8_witness :
    DecodeKey envW (2 * 1) (EncodeKey envW (2 * 1) (List.replicate 16 0) 3).2
      (2 * (EncodeKey envW (2 * 1) (List.replicate 16 0) 3).1 + 4 * (2 * 1)) 4
      = .ok (List.replicate 16 0) := by
  refine c8_key_roundtrip envW 2 4 3 (List.replicate 16 0) (by decide) ?_
  intro rem hne hsfx
  rcases rem with _ | ⟨a, rest⟩
  · exact absurd rfl hne
  · have ha : a = 0 := List.eq_of_mem_replicate (hsfx.subset (List.mem_cons_self a rest))
    subst ha
    simp [envW]

theorem getD_set_eq_if {α : Type} (l : List α) (k s : ℕ) (v d : α) (hk : k < l.length) :
    (l.set k v).getD s d = if s = k then v else l.getD s d := by
  by_cases hs : s = k
  · subst hs
    rw [if_pos rfl, List.getD_eq_getElem _ _ (by simpa using hk)]
    exact List.getElem_set_self _
  · rw [if_neg hs]
    by_cases hlen : s < l.length
    · rw [List.getD_eq_getElem _ _ (by simpa using hlen), List.getD_eq_getElem _ _ hlen]
      exact List.getElem_set_ne (fun h => hs h.symm) _
    · rw [List.getD_eq_default _ _ (by simpa using (not_lt.mp hlen)),
        List.getD_eq_default _ _ (not_lt.mp hlen)]

theorem reorderAux_char {q : ℕ} : ∀ (L : List (PubVerShare q))
    (arr : List (Option (PubVerShare q))),
    (∀ sh ∈ L, 0 ≤ sh.S.I ∧ sh.S.I < (arr.length : ℤ)) →
    (L.map (fun sh => sh.S.I)).Nodup →
    ∃ arr', reorderAux L arr = some arr' ∧ arr'.length = arr.length ∧
      (∀ s : ℕ, (∀ sh ∈ L, sh.S.I ≠ (s : ℤ)) → arr'.getD s none = arr.getD s none) ∧
      (∀ sh ∈ L, arr'.getD sh.S.I.toNat none = some sh) := by
  intro L
  induction L with
  | nil =>
    intro arr _ _
    exact ⟨arr, rfl, rfl, fun _ _ => rfl, fun sh hs => absurd hs (List.not_mem_nil sh)⟩
  | cons sh rest ih =>
    intro arr hb hnd
    have hsh := hb sh (List.mem_cons_self sh rest)
    have hkNat : sh.S.I.toNat < arr.length := by omega
    have hcast : (sh.S.I.toNat : ℤ) = sh.S.I := Int.toNat_of_nonneg hsh.1
    rw [List.map_cons, List.nodup_cons] at hnd
    have hb' : ∀ s ∈ rest, 0 ≤ s.S.I ∧
        s.S.I < ((arr.set sh.S.I.toNat (some sh)).length : ℤ) := by
      intro s hs
      have := hb s (List.mem_cons_of_mem sh hs)
      simpa [List.length_set] using this
    obtain ⟨arr', h1, h2, h3, h4⟩ := ih (arr.set sh.S.I.toNat (some sh)) hb' hnd.2
    refine ⟨arr', ?_, by simpa [List.length_set] using h2, ?_, ?_⟩
    · simp only [reorderAux, if_pos hsh, h1]
    · intro s hs
      have hne : sh.S.I ≠ (s : ℤ) := hs sh (List.mem_cons_self sh rest)
      rw [h3 s (fun r hr => hs r (List.mem_cons_of_mem sh hr)),
        getD_set_eq_if arr sh.S.I.toNat s (some sh) none hkNat,
        if_neg (fun h => hne (by omega))]
    · intro s hsmem
      rcases List.mem_cons.mp hsmem with rfl | hmem
      · have hrest : ∀ r ∈ rest, r.S.I ≠ (s.S.I.toNat : ℤ) := by
          intro r hr hEq
          exact hnd.1 (by
            refine List.mem_map.mpr ⟨r, hr, ?_⟩
            omega)
        rw [h3 s.S.I.toNat hrest,
          getD_set_eq_if arr s.S.I.toNat s.S.I.toNat (some s) none hkNat, if_pos rfl]
      · exact h4 s hmem

/-- C7 (amended).  The share-index selection of `OTSDecrypt.Dispatch`:
(i) with the protocol tree rooted at position `0` (the node the reader
contacted), the map from tree position to processed share index — root:
`idx := RootIndex`; leaf: `idx := own index`, swapped to `0` when it equals
`RootIndex` — is exactly the transposition `0 ↔ root_index`.  In particular
the *root* processes share `root_index` (not share `0` as the claim states;
see the counterexample) and the node at position `root_index` processes
share `0`;
(ii) the assignment is an involution, hence invertible by the reader;
(iii) for every `root_index < n` the processed share indices are a
permutation of `0..n−1`;
(iv) reordering the produced shares by their embedded index `S.I` (as
`GetDecryptedShares` does) recovers the canonical slot array, identical for
every `root_index` — so rotation does not alter what the reader
reconstructs. -/
theorem c7_share_assignment {q : ℕ} :
    (∀ r j, treeAssign r j = Equiv.swap 0 r j)
  ∧ (∀ r j, treeAssign r (treeAssign r j) = j)
  ∧ (∀ r n, r < n → ((List.range n).map (treeAssign r)).Perm (List.range n))
  ∧ (∀ (n r : ℕ) (hshare : ℕ → PubVerShare q), r < n →
      (∀ s, (hshare s).S.I = (s : ℤ)) →
      reorderShares ((List.range n).map (fun j => hshare (treeAssign r j)))
        = some ((List.range n).map (fun s => some (hshare s)))) := by
  have hswap : ∀ r j, treeAssign r j = Equiv.swap 0 r j := by
    intro r j
    simp [treeAssign, rootShareIdx, leafShareIdx, Equiv.swap_apply_def]
  have hinv : ∀ r j, treeAssign r (treeAssign r j) = j := by
    intro r j
    rw [hswap, hswap]
    exact Equiv.swap_apply_self 0 r j
  have hlt : ∀ r n j, r < n → j < n → treeAssign r j < n := by
    intro r n j hrn hj
    rw [hswap, Equiv.swap_apply_def]
    split_ifs <;> omega
  have hinj : ∀ r, Function.Injective (treeAssign r) := by
    intro r a b h
    have h' : Equiv.swap 0 r a = Equiv.swap 0 r b := by
      rw [← hswap, ← hswap]
      exact h
    exact Equiv.injective _ h'
  refine ⟨hswap, hinv, ?_, ?_⟩
  · intro r n hrn
    refine List.perm_of_nodup_nodup_toFinset_eq
      (List.Nodup.map (hinj r) (List.nodup_range n)) (List.nodup_range n) ?_
    ext x
    simp only [List.mem_toFinset, List.mem_map, List.mem_range]
    constructor
    · rintro ⟨j, hj, rfl⟩
      exact hlt r n j hrn hj
    · intro hx
      exact ⟨treeAssign r x, hlt r n x hrn hx, hinv r x⟩
  · intro n r hshare hrn hI
    have hlenL : ((List.range n).map (fun j => hshare (treeAssign r j))).length = n := by
      rw [List.length_map, List.length_range]
    have hb : ∀ sh ∈ (List.range n).map (fun j => hshare (treeAssign r j)),
        0 ≤ sh.S.I ∧ sh.S.I <
          ((List.replicate ((List.range n).map
            (fun j => hshare (treeAssign r j))).length
            (none : Option (PubVerShare q))).length : ℤ) := by
      intro sh hs
      rcases List.mem_map.mp hs with ⟨j, hj, rfl⟩
      rw [List.length_replicate, hlenL, hI]
      have := hlt r n j hrn (List.mem_range.mp hj)
      omega
    have hnd : (((List.range n).map (fun j => hshare (treeAssign r j))).map
        (fun sh => sh.S.I)).Nodup := by
      rw [List.map_map]
      have heq : ((fun sh => sh.S.I) ∘ fun j => hshare (treeAssign r j))
          = fun j => ((treeAssign r j : ℕ) : ℤ) := by
        funext j
        simp [Function.comp, hI]
      rw [heq]
      refine List.Nodup.map ?_ (List.nodup_range n)
      intro a b hab
      simp only at hab
      exact hinj r (by exact_mod_cast hab)
    obtain ⟨arr', h1, h2, _, h4⟩ := reorderAux_char
      ((List.range n).map (fun j => hshare (treeAssign r j))) _ hb hnd
    have harr : reorderShares ((List.range n).map (fun j => hshare (treeAssign r j)))
        = some arr' := h1
    rw [harr]
    congr 1
    have hlen' : arr'.length = n := by
      rw [h2, List.length_replicate, hlenL]
    refine List.ext_getElem (by rw [hlen', List.length_map, List.length_range]) ?_
    intro s hs1 hs2
    have hsn : s < n := by rwa [hlen'] at hs1
    have hmem : hshare (treeAssign r (treeAssign r s)) ∈
        (List.range n).map (fun j => hshare (treeAssign r j)) :=
      List.mem_map_of_mem _ (List.mem_range.mpr (hlt r n s hrn hsn))
    have hslot := h4 _ hmem
    rw [hinv r s] at hslot
    have hIs : (hshare s).S.I.toNat = s := by
      rw [hI]
      omega
    rw [hIs] at hslot
    have hgetD : arr'.getD s none = arr'[s] := List.getD_eq_getElem arr' none hs1
    rw [hgetD] at hslot
    rw [hslot]
    simp

/-- C7, counterexample to the claim as stated: with `root_index = 1` the
root branch of `Dispatch` selects `idx := RootIndex = 1`, so the root
trustee processes share `1`, not share `0`. -/
theorem c7_counterexample :
    rootShareIdx 1 = 1 ∧ treeAssign 1 0 = 1 ∧ (1 : ℕ) ≠ 0 := by
  decide

/-- C7, witness: the permutation part at `r = 1`, `n = 3`, and the
reader-side inversion part for a concrete share family. -/
theorem c7_witness :
    ((List.range 3).map (treeAssign 1)).Perm (List.range 3)
  ∧ reorderShares ((List.range 3).map
      (fun j => (⟨⟨(treeAssign 1 j : ℤ), 0⟩, default⟩ : PubVerShare 5)))
      = some ((List.range 3).map
        (fun s => some (⟨⟨(s : ℤ), 0⟩, default⟩ : PubVerShare 5))) := by
  constructor
  · exact (c7_share_assignment (q := 5)).2.2.1 1 3 (by decide)
  · exact (c7_share_assignment (q := 5)).2.2.2 3 1
      (fun s => ⟨⟨(s : ℤ), 0⟩, default⟩) (by decide) (fun s => rfl)

end OTS
